import Mathlib

/-!
Shallow embedding of the byte-level BPE tokenizer in `src/tokenizer.py`
(class `Tokenizer`), together with proofs of the specification claims.

Modelling conventions:
* Python `str` values are lists of Unicode code points (`List Nat`);
  `bytes` values are lists of byte values (`List Nat`, each `< 256`).
* Python dictionaries whose iteration order matters (`get_stats` counters
  and `self.merges`) are association lists in insertion order; the
  vocabulary `self.vocab` is only ever indexed and assigned, never
  iterated, so it is a function `Nat → Option (List Nat)` (with `none`
  marking a missing key, i.e. a `KeyError` on lookup).
* Fallible operations (dictionary lookup that may raise `KeyError`,
  `max()` on an empty dict raising `ValueError`, `str.encode` raising
  `UnicodeEncodeError` on lone surrogates, and iterating the 0-d tensor
  that `tokens.squeeze()` produces from a one-element input raising
  `TypeError`) return `Option`, with `none` for the raised exception.
* `train` applies a regex pre-tokenizer to the corpus, re-encodes each
  chunk to UTF-8 and concatenates the chunks back into one byte stream
  before the merge loop; the embedding takes that concatenated byte
  stream (an arbitrary list of byte values) as the corpus argument, so
  quantifying over all byte lists `< 256` covers every corpus.
-/

/-- The values of `Tokenizer.SPECIAL_TOKENS` (`{"<PAD>": 0, "<UNK>": 1,
"<BOS>": 2, "<EOS>": 3}`), in insertion order. -/
def specialTokenIds : List Nat := [0, 1, 2, 3]

/-- UTF-8 bytes of the special-token strings: id 0 ↦ `"<PAD>"`, 1 ↦ `"<UNK>"`,
2 ↦ `"<BOS>"`, 3 ↦ `"<EOS>"` (any other argument is irrelevant). -/
def specialTokenBytes : Nat → List Nat
  | 0 => [60, 80, 65, 68, 62]
  | 1 => [60, 85, 78, 75, 62]
  | 2 => [60, 66, 79, 83, 62]
  | _ => [60, 69, 79, 83, 62]

/-- The vocabulary built by `Tokenizer.__init__`: ids `0`–`255` map to the
single raw byte, then ids `0`–`3` are overwritten with the special-token
byte strings. -/
def initVocab : Nat → Option (List Nat) := fun n =>
  if n < 4 then some (specialTokenBytes n)
  else if n < 256 then some [n]
  else none

/-- The mutable state of a `Tokenizer` instance: `vocab_size`, `vocab`
and `merges` (the memoization cache `_stats_cache` is never read by the
training path and has no observable effect, so it is omitted). -/
structure Tokenizer where
  vocab_size : Nat
  vocab : Nat → Option (List Nat)
  merges : List ((Nat × Nat) × Nat)

/-- `Tokenizer(vocab_size)`: the freshly constructed state. -/
def Tokenizer.mk0 (vocab_size : Nat) : Tokenizer :=
  { vocab_size := vocab_size, vocab := initVocab, merges := [] }

/-- The adjacent pairs `zip(tokens, tokens[1:])`. -/
def zipPairs : List Nat → List (Nat × Nat)
  | a :: b :: rest => (a, b) :: zipPairs (b :: rest)
  | _ => []

/-- `counts[pair] = counts.get(pair, 0) + 1` on an insertion-ordered
association list: increment in place if present, else append. -/
def bump (l : List ((Nat × Nat) × Nat)) (p : Nat × Nat) : List ((Nat × Nat) × Nat) :=
  match l with
  | [] => [(p, 1)]
  | (q, c) :: rest => if q = p then (q, c + 1) :: rest else (q, c) :: bump rest p

/-- `Tokenizer.get_stats`: frequency of each adjacent pair, keys in
first-occurrence order (Python dict insertion order). -/
def get_stats (tokens : List Nat) : List ((Nat × Nat) × Nat) :=
  (zipPairs tokens).foldl bump []

/-- `Tokenizer.merge_tokens(tokens, (a, b), idx)`: one left-to-right pass
replacing every non-overlapping occurrence of the pair by `idx`. -/
def merge_tokens (a b idx : Nat) : List Nat → List Nat
  | [] => []
  | [t] => [t]
  | t :: u :: rest =>
    if t = a ∧ u = b then idx :: merge_tokens a b idx rest
    else t :: merge_tokens a b idx (u :: rest)

/-- Whether the pair `(a, b)` occurs at adjacent positions of the list. -/
def hasPair (a b : Nat) : List Nat → Bool
  | x :: y :: rest => (x = a ∧ y = b : Bool) || hasPair a b (y :: rest)
  | _ => false

/-- Association-list lookup, the semantics of `d[k]` / `d.get(k)` for the
`merges` dictionary (`none` = key absent). -/
def lookupM (l : List ((Nat × Nat) × Nat)) (p : Nat × Nat) : Option Nat :=
  match l with
  | [] => none
  | (q, v) :: rest => if q = p then some v else lookupM rest p

/-- `d[k] = v` on an insertion-ordered association list: overwrite in
place if the key is present, else append. -/
def dictInsert (l : List ((Nat × Nat) × Nat)) (p : Nat × Nat) (v : Nat) :
    List ((Nat × Nat) × Nat) :=
  match l with
  | [] => [(p, v)]
  | (q, c) :: rest => if q = p then (q, v) :: rest else (q, c) :: dictInsert rest p v

/-- `max(stats, key=stats.get)`: first key attaining the maximal count
(Python's `max` keeps the earliest of equal keys); `none` exactly when the
dict is empty, where CPython raises `ValueError`. -/
def pyMax (l : List ((Nat × Nat) × Nat)) : Option ((Nat × Nat) × Nat) :=
  match l with
  | [] => none
  | e :: rest => some (rest.foldl (fun best f => if best.2 < f.2 then f else best) e)

/-- `some a` is strictly smaller than `some b` iff `a < b`, and any
`some` is strictly smaller than `none` (`none` plays `float("inf")`). -/
def ltInf (x y : Option Nat) : Bool :=
  match x, y with
  | none, _ => false
  | some _, none => true
  | some a, some b => a < b

/-- `min(stats, key=lambda p: self.merges.get(p, float("inf")))` over the
keys of `stats`: first key attaining the minimal merge id, keys absent
from `merges` ranking as infinity; `none` iff `stats` is empty. -/
def pyMinKey (merges : List ((Nat × Nat) × Nat)) (l : List (Nat × Nat)) :
    Option (Nat × Nat) :=
  match l with
  | [] => none
  | p :: rest =>
    some (rest.foldl (fun best q =>
      if ltInf (lookupM merges q) (lookupM merges best) then q else best) p)

/-! ### Basic lemmas about the pair-merge pass (needed for termination) -/

lemma merge_tokens_length_le (a b idx : Nat) :
    ∀ ts : List Nat, (merge_tokens a b idx ts).length ≤ ts.length
  | [] => by simp [merge_tokens]
  | [t] => by simp [merge_tokens]
  | t :: u :: rest => by
    by_cases h : t = a ∧ u = b
    · have ih := merge_tokens_length_le a b idx rest
      simp only [merge_tokens, if_pos h, List.length_cons]
      omega
    · have ih := merge_tokens_length_le a b idx (u :: rest)
      simp only [merge_tokens, if_neg h, List.length_cons] at ih ⊢
      omega

lemma hasPair_merge_tokens_lt (a b idx : Nat) :
    ∀ ts : List Nat, hasPair a b ts = true →
      (merge_tokens a b idx ts).length < ts.length
  | t :: u :: rest, hp => by
    by_cases h : t = a ∧ u = b
    · have le := merge_tokens_length_le a b idx rest
      simp only [merge_tokens, if_pos h, List.length_cons]
      omega
    · have hp' : hasPair a b (u :: rest) = true := by
        simp only [hasPair, Bool.or_eq_true, decide_eq_true_eq] at hp
        rcases hp with h1 | h1
        · exact absurd h1 h
        · exact h1
      have ih := hasPair_merge_tokens_lt a b idx (u :: rest) hp'
      simp only [merge_tokens, if_neg h, List.length_cons] at ih ⊢
      omega

lemma foldl_pick_mem {α : Type} (f : α → α → α) (hf : ∀ x y, f x y = x ∨ f x y = y) :
    ∀ (l : List α) (a : α), l.foldl f a = a ∨ l.foldl f a ∈ l
  | [], _ => Or.inl rfl
  | x :: rest, a => by
    have key : List.foldl f a (x :: rest) = List.foldl f (f a x) rest := rfl
    rcases foldl_pick_mem f hf rest (f a x) with h | h
    · rcases hf a x with h2 | h2
      · exact Or.inl (by rw [key, h, h2])
      · refine Or.inr ?_
        rw [key, h, h2]
        exact List.mem_cons_self x rest
    · exact Or.inr (List.mem_cons_of_mem x (key ▸ h))

lemma pyMinKey_mem (merges : List ((Nat × Nat) × Nat)) (l : List (Nat × Nat))
    (p : Nat × Nat) (h : pyMinKey merges l = some p) : p ∈ l := by
  cases l with
  | nil => simp [pyMinKey] at h
  | cons x rest =>
    simp only [pyMinKey, Option.some.injEq] at h
    have hf : ∀ u v : Nat × Nat,
        (if ltInf (lookupM merges v) (lookupM merges u) then v else u) = u ∨
        (if ltInf (lookupM merges v) (lookupM merges u) then v else u) = v := by
      intro u v
      by_cases hc : ltInf (lookupM merges v) (lookupM merges u) = true
      · exact Or.inr (by simp [hc])
      · exact Or.inl (by simp [hc])
    rcases foldl_pick_mem _ hf rest x with h2 | h2
    · rw [← h, h2]; exact List.mem_cons_self x rest
    · rw [← h]; exact List.mem_cons_of_mem x h2

lemma pyMax_mem (l : List ((Nat × Nat) × Nat)) (e : (Nat × Nat) × Nat)
    (h : pyMax l = some e) : e ∈ l := by
  cases l with
  | nil => simp [pyMax] at h
  | cons x rest =>
    simp only [pyMax, Option.some.injEq] at h
    have hf : ∀ u v : (Nat × Nat) × Nat,
        (if u.2 < v.2 then v else u) = u ∨ (if u.2 < v.2 then v else u) = v := by
      intro u v
      by_cases hc : u.2 < v.2
      · exact Or.inr (by simp [hc])
      · exact Or.inl (by simp [hc])
    rcases foldl_pick_mem _ hf rest x with h2 | h2
    · rw [← h, h2]; exact List.mem_cons_self x rest
    · rw [← h]; exact List.mem_cons_of_mem x h2

lemma mem_keys_bump (p q : Nat × Nat) :
    ∀ l : List ((Nat × Nat) × Nat),
      (q ∈ (bump l p).map Prod.fst ↔ q ∈ l.map Prod.fst ∨ q = p)
  | [] => by simp [bump]
  | (r, c) :: rest => by
    by_cases h : r = p
    · subst h
      simp [bump]
      tauto
    · have ih := mem_keys_bump p q rest
      simp only [bump, if_neg h, List.map_cons, List.mem_cons] at ih ⊢
      tauto

lemma mem_keys_foldl_bump (q : Nat × Nat) :
    ∀ (ps : List (Nat × Nat)) (acc : List ((Nat × Nat) × Nat)),
      (q ∈ (ps.foldl bump acc).map Prod.fst ↔ q ∈ acc.map Prod.fst ∨ q ∈ ps)
  | [], acc => by simp
  | p :: rest, acc => by
    have ih := mem_keys_foldl_bump q rest (bump acc p)
    have hb := mem_keys_bump p q acc
    simp only [List.foldl] at ih ⊢
    rw [ih, hb]
    simp [List.mem_cons]
    tauto

lemma mem_get_stats_keys (q : Nat × Nat) (ts : List Nat) :
    q ∈ (get_stats ts).map Prod.fst ↔ q ∈ zipPairs ts := by
  unfold get_stats
  rw [mem_keys_foldl_bump]
  simp

lemma mem_zipPairs_iff_hasPair (a b : Nat) :
    ∀ ts : List Nat, ((a, b) ∈ zipPairs ts ↔ hasPair a b ts = true)
  | [] => by simp [zipPairs, hasPair]
  | [t] => by simp [zipPairs, hasPair]
  | t :: u :: rest => by
    have ih := mem_zipPairs_iff_hasPair a b (u :: rest)
    simp only [zipPairs, hasPair, List.mem_cons, Bool.or_eq_true,
      decide_eq_true_eq, Prod.mk.injEq] at ih ⊢
    rw [ih]
    tauto

/-- One iteration of the `while len(tokens) >= 2` loop of
`Tokenizer.encode`: `some next` when the body runs a merge (at least two
tokens, and the `min`-selected pair — lowest merge id, `float("inf")` for
unregistered pairs, ties to the first key in dict order — is registered),
`none` when the loop exits (guard false or `break`). -/
def encodeStep (merges : List ((Nat × Nat) × Nat)) (tokens : List Nat) :
    Option (List Nat) :=
  if 2 ≤ tokens.length then
    match pyMinKey merges ((get_stats tokens).map Prod.fst) with
    | none => none
    | some p =>
      match lookupM merges p with
      | none => none
      | some idx => some (merge_tokens p.1 p.2 idx tokens)
  else none

/-- The encode loop with explicit fuel (structural recursion);
`encodeFuel_exhausts` below shows that `tokens.length` fuel always
reaches the loop exit, so `encodeLoop` is exactly the Python loop. -/
def encodeFuel (merges : List ((Nat × Nat) × Nat)) :
    Nat → List Nat → List Nat
  | 0, tokens => tokens
  | n + 1, tokens =>
    match encodeStep merges tokens with
    | none => tokens
    | some next => encodeFuel merges n next

/-- The loop of `Tokenizer.encode`: while at least two tokens remain, pick
the adjacent pair with the lowest merge id, stop if it is unregistered,
otherwise replace all its non-overlapping occurrences and repeat. -/
def encodeLoop (merges : List ((Nat × Nat) × Nat)) (tokens : List Nat) : List Nat :=
  encodeFuel merges tokens.length tokens

lemma encodeStep_length_lt (merges : List ((Nat × Nat) × Nat))
    (tokens next : List Nat) (h : encodeStep merges tokens = some next) :
    next.length < tokens.length := by
  unfold encodeStep at h
  split at h
  · split at h
    · exact absurd h (by simp)
    · rename_i p hp
      split at h
      · exact absurd h (by simp)
      · rename_i idx _
        have hmem : p ∈ (get_stats tokens).map Prod.fst :=
          pyMinKey_mem _ _ _ hp
        rw [mem_get_stats_keys] at hmem
        have hhp : hasPair p.1 p.2 tokens = true := by
          rw [← mem_zipPairs_iff_hasPair]
          simpa using hmem
        have := hasPair_merge_tokens_lt p.1 p.2 idx tokens hhp
        simp only [Option.some.injEq] at h
        rw [← h]
        exact this
  · exact absurd h (by simp)

/-- With at least `tokens.length` fuel the loop always reaches its exit
condition: the fuel bound is never the reason `encodeFuel` stops. -/
lemma encodeFuel_exhausts (merges : List ((Nat × Nat) × Nat)) :
    ∀ (n : Nat) (tokens : List Nat), tokens.length ≤ n →
      encodeStep merges (encodeFuel merges n tokens) = none
  | 0, tokens, hle => by
    have h0 : tokens.length = 0 := Nat.le_zero.mp hle
    unfold encodeFuel encodeStep
    rw [if_neg (by omega)]
  | n + 1, tokens, hle => by
    unfold encodeFuel
    cases hs : encodeStep merges tokens with
    | none => exact hs
    | some next =>
      have := encodeStep_length_lt merges tokens next hs
      exact encodeFuel_exhausts merges n next (by omega)

/-- Extra fuel beyond `tokens.length` never changes the result. -/
lemma encodeFuel_irrel (merges : List ((Nat × Nat) × Nat)) :
    ∀ (n m : Nat) (tokens : List Nat), tokens.length ≤ n → tokens.length ≤ m →
      encodeFuel merges n tokens = encodeFuel merges m tokens
  | 0, m, tokens, hn, _ => by
    have h0 : tokens.length = 0 := Nat.le_zero.mp hn
    cases m with
    | zero => rfl
    | succ m =>
      unfold encodeFuel
      have hs : encodeStep merges tokens = none := by
        unfold encodeStep
        rw [if_neg (by omega)]
      rw [hs]
  | n + 1, m, tokens, hn, hm => by
    cases m with
    | zero =>
      have h0 : tokens.length = 0 := Nat.le_zero.mp hm
      unfold encodeFuel
      have hs : encodeStep merges tokens = none := by
        unfold encodeStep
        rw [if_neg (by omega)]
      rw [hs]
    | succ m =>
      unfold encodeFuel
      cases hs : encodeStep merges tokens with
      | none => rfl
      | some next =>
        have := encodeStep_length_lt merges tokens next hs
        exact encodeFuel_irrel merges n m next (by omega) (by omega)

lemma encodeFuel_succ (merges : List ((Nat × Nat) × Nat)) (n : Nat)
    (tokens : List Nat) :
    encodeFuel merges (n + 1) tokens =
      match encodeStep merges tokens with
      | none => tokens
      | some next => encodeFuel merges n next := rfl

/-- `encodeLoop` satisfies the defining equation of the Python `while`
loop: run one step and recurse, or return the tokens at the exit. -/
lemma encodeLoop_eq (merges : List ((Nat × Nat) × Nat)) (tokens : List Nat) :
    encodeLoop merges tokens =
      match encodeStep merges tokens with
      | none => tokens
      | some next => encodeLoop merges next := by
  cases hs : encodeStep merges tokens with
  | none =>
    unfold encodeLoop
    cases hl : tokens.length with
    | zero => rfl
    | succ n => rw [encodeFuel_succ, hs]
  | some next =>
    have hlt := encodeStep_length_lt merges tokens next hs
    unfold encodeLoop
    obtain ⟨n, hl⟩ : ∃ n, tokens.length = n + 1 := ⟨tokens.length - 1, by omega⟩
    rw [hl, encodeFuel_succ, hs]
    exact encodeFuel_irrel merges n next.length next (by omega) (by omega)

/-! ### UTF-8 encoding and decoding (the semantics of `str.encode("utf-8")`
and `bytes.decode("utf-8", errors="replace")`) -/

/-- Whether a code point is a Unicode scalar value; `str.encode("utf-8")`
raises `UnicodeEncodeError` exactly on lone surrogates (code points above
`0x10FFFF` cannot occur in a Python `str` at all). -/
def isScalar (c : Nat) : Bool :=
  decide (c < 0x110000 ∧ ¬(0xD800 ≤ c ∧ c < 0xE000))

/-- The UTF-8 byte sequence of one code point. -/
def utf8EncodeChar (c : Nat) : List Nat :=
  if c < 0x80 then [c]
  else if c < 0x800 then [0xC0 + c / 64, 0x80 + c % 64]
  else if c < 0x10000 then [0xE0 + c / 4096, 0x80 + c / 64 % 64, 0x80 + c % 64]
  else [0xF0 + c / 262144, 0x80 + c / 4096 % 64, 0x80 + c / 64 % 64, 0x80 + c % 64]

/-- `text.encode("utf-8")`: `none` when some code point is not a scalar
value (a `UnicodeEncodeError`), else the concatenated byte sequences. -/
def strEncodeUtf8 (text : List Nat) : Option (List Nat) :=
  if text.all isScalar then some ((text.map utf8EncodeChar).flatten) else none

/-- Valid range of the first continuation byte after lead byte `b0`
(the lead byte fixes it: `E0` → `A0..BF`, `ED` → `80..9F`, `F0` → `90..BF`,
`F4` → `80..8F`, otherwise `80..BF`). -/
def cont2OK (b0 b1 : Nat) : Bool :=
  if b0 = 0xE0 then decide (0xA0 ≤ b1 ∧ b1 < 0xC0)
  else if b0 = 0xED then decide (0x80 ≤ b1 ∧ b1 < 0xA0)
  else if b0 = 0xF0 then decide (0x90 ≤ b1 ∧ b1 < 0xC0)
  else if b0 = 0xF4 then decide (0x80 ≤ b1 ∧ b1 < 0x90)
  else decide (0x80 ≤ b1 ∧ b1 < 0xC0)

/-- `bytes.decode("utf-8", errors="replace")`: total; each maximal subpart
of an ill-formed subsequence becomes one replacement character `U+FFFD`
(CPython's behaviour, following Unicode's recommended practice). -/
def utf8DecodeReplace : List Nat → List Nat
  | [] => []
  | b0 :: rest =>
    if b0 < 0x80 then b0 :: utf8DecodeReplace rest
    else if b0 < 0xC2 then 0xFFFD :: utf8DecodeReplace rest
    else if b0 < 0xE0 then
      match rest with
      | [] => [0xFFFD]
      | b1 :: rest1 =>
        if 0x80 ≤ b1 ∧ b1 < 0xC0 then
          ((b0 - 0xC0) * 64 + (b1 - 0x80)) :: utf8DecodeReplace rest1
        else 0xFFFD :: utf8DecodeReplace (b1 :: rest1)
    else if b0 < 0xF0 then
      match rest with
      | [] => [0xFFFD]
      | b1 :: rest1 =>
        if cont2OK b0 b1 then
          match rest1 with
          | [] => [0xFFFD]
          | b2 :: rest2 =>
            if 0x80 ≤ b2 ∧ b2 < 0xC0 then
              ((b0 - 0xE0) * 4096 + (b1 - 0x80) * 64 + (b2 - 0x80)) ::
                utf8DecodeReplace rest2
            else 0xFFFD :: utf8DecodeReplace (b2 :: rest2)
        else 0xFFFD :: utf8DecodeReplace (b1 :: rest1)
    else if b0 < 0xF5 then
      match rest with
      | [] => [0xFFFD]
      | b1 :: rest1 =>
        if cont2OK b0 b1 then
          match rest1 with
          | [] => [0xFFFD]
          | b2 :: rest2 =>
            if 0x80 ≤ b2 ∧ b2 < 0xC0 then
              match rest2 with
              | [] => [0xFFFD]
              | b3 :: rest3 =>
                if 0x80 ≤ b3 ∧ b3 < 0xC0 then
                  ((b0 - 0xF0) * 262144 + (b1 - 0x80) * 4096 +
                    (b2 - 0x80) * 64 + (b3 - 0x80)) :: utf8DecodeReplace rest3
                else 0xFFFD :: utf8DecodeReplace (b3 :: rest3)
            else 0xFFFD :: utf8DecodeReplace (b2 :: rest2)
        else 0xFFFD :: utf8DecodeReplace (b1 :: rest1)
    else 0xFFFD :: utf8DecodeReplace rest

/-! ### encode, decode, train -/

/-- `Tokenizer.encode(text)`: UTF-8 bytes as initial ids, then the merge
loop (no pre-tokenizer is applied on this path). -/
def Tokenizer.encode (t : Tokenizer) (text : List Nat) : Option (List Nat) :=
  (strEncodeUtf8 text).map (encodeLoop t.merges)

/-- The list comprehension `[self.vocab[t] for t in token_list]` followed
by `b"".join(...)`: sequential lookups, `none` at the first missing key
(a `KeyError`). -/
def expand (v : Nat → Option (List Nat)) : List Nat → Option (List Nat)
  | [] => some []
  | t :: rest =>
    match v t, expand v rest with
    | some s, some r => some (s ++ r)
    | _, _ => none

/-- `Tokenizer.decode(tokens)`: the input is a `torch.Tensor`, and the
code iterates `tokens.squeeze()`. `squeeze()` collapses a one-element
tensor to a 0-dimensional tensor, and iterating a 0-d tensor raises
`TypeError` — so every one-element input fails (`none`), whatever the id.
Otherwise (a 1-D tensor of length 0 or ≥ 2 is unchanged by `squeeze`):
drop ids in `SPECIAL_TOKENS.values()` wherever they occur, look each
remaining id up in the vocabulary (a missing id raises `KeyError`, also
`none`), concatenate, and decode as UTF-8 with replacement. -/
def Tokenizer.decode (t : Tokenizer) (ids : List Nat) : Option (List Nat) :=
  if ids.length = 1 then none
  else
    match expand t.vocab (ids.filter fun i => !(specialTokenIds.contains i)) with
    | some bs => some (utf8DecodeReplace bs)
    | none => none

/-- `Tokenizer.add_special_tokens(tokens)`: wrap with `<BOS>` and `<EOS>`. -/
def Tokenizer.add_special_tokens (tokens : List Nat) : List Nat :=
  [2] ++ tokens ++ [3]

/-- The merge loop of `Tokenizer.train`: `n` remaining iterations, `i`
iterations done. Each iteration recomputes the stats over the current
sequence, takes the first maximal pair (`max` on an empty dict raises
`ValueError` — `none`), rewrites the sequence and records
`pair ↦ 256 + i + 4`. Returns the final merges and token sequence. -/
def trainLoop :
    Nat → Nat → List ((Nat × Nat) × Nat) → List Nat →
      Option (List ((Nat × Nat) × Nat) × List Nat)
  | 0, _, merges, toks => some (merges, toks)
  | n + 1, i, merges, toks =>
    match pyMax (get_stats toks) with
    | none => none
    | some (p, _) =>
      trainLoop n (i + 1) (dictInsert merges p (256 + i + 4))
        (merge_tokens p.1 p.2 (256 + i + 4) toks)

/-- The vocabulary-building loop of `Tokenizer.train`:
`for (a, b), idx in self.merges.items(): self.vocab[idx] = self.vocab[a] + self.vocab[b]`,
in dict insertion order; a missing constituent id raises `KeyError`. -/
def buildVocab (v : Nat → Option (List Nat)) :
    List ((Nat × Nat) × Nat) → Option (Nat → Option (List Nat))
  | [] => some v
  | ((a, b), m) :: rest =>
    match v a, v b with
    | some va, some vb =>
      buildVocab (fun n => if n = m then some (va ++ vb) else v n) rest
    | _, _ => none

/-- `Tokenizer.train(text)` after the regex pre-tokenization step:
`corpusBytes` is the concatenated UTF-8 byte stream of the regex chunks
(for the all-letter corpus `"aaabaaab"` the regex matches the whole text
as one chunk, so the stream is exactly its UTF-8 bytes). Runs
`vocab_size - 256 - len(SPECIAL_TOKENS)` merge iterations and then
extends the vocabulary; `none` models an uncaught exception. -/
def Tokenizer.train (t : Tokenizer) (corpusBytes : List Nat) : Option Tokenizer :=
  match trainLoop (t.vocab_size - 256 - 4) 0 t.merges corpusBytes with
  | none => none
  | some (merges, _) =>
    match buildVocab t.vocab merges with
    | none => none
    | some v => some { vocab_size := t.vocab_size, vocab := v, merges := merges }

/-! ### Concrete scenario material -/

/-- The corpus `"aaabaaab"` of scenario A, as UTF-8 bytes (the regex
pre-tokenizer matches the all-letter text as a single chunk, so the byte
stream handed to the merge loop is exactly these bytes). -/
def corpusA : List Nat := [97, 97, 97, 98, 97, 97, 97, 98]

/-- The tokenizer produced by scenario A: fresh `Tokenizer(261)` trained
on `"aaabaaab"` (a single merge). -/
def tokA : Tokenizer :=
  ((Tokenizer.mk0 261).train corpusA).getD (Tokenizer.mk0 0)

/-! ### Claim theorems: concrete scenarios and error behaviour -/

/-- C3: the claim says training on a corpus supporting fewer mergeable
pairs than the requested merges fails with a structured
`InsufficientDataError`. The code has no such error class: with
`vocab_size = 262` (two merges) and corpus `"ab"` (bytes `[97, 98]`),
the first iteration merges the only pair, the second calls
`max(stats, key=stats.get)` on an empty dict, and CPython raises an
unhandled `ValueError` (`none` in the model). -/
theorem claim_C3_train_crash :
    (Tokenizer.mk0 262).train [97, 98] = none ∧
      get_stats [260] = [] ∧
      trainLoop 1 1 [((97, 98), 260)] [260] = none := by
  refine ⟨rfl, rfl, rfl⟩

/-- C7: training a fresh `Tokenizer(261)` (one merge) on corpus
`"aaabaaab"` finds pair `(97,97)` with strictly maximal frequency 4,
selects it, assigns merge id 260, sets `vocab[260]` to the two-byte
string `"aa"`, and rewrites the training sequence to
`[260, 97, 98, 260, 97, 98]`. -/
theorem claim_C7_scenario_A :
    get_stats corpusA = [((97, 97), 4), ((97, 98), 2), ((98, 97), 1)] ∧
      (∀ e ∈ get_stats corpusA, e.1 ≠ (97, 97) → e.2 < 4) ∧
      pyMax (get_stats corpusA) = some ((97, 97), 4) ∧
      trainLoop 1 0 [] corpusA = some ([((97, 97), 260)], [260, 97, 98, 260, 97, 98]) ∧
      ((Tokenizer.mk0 261).train corpusA).map Tokenizer.merges = some [((97, 97), 260)] ∧
      ((Tokenizer.mk0 261).train corpusA).map (fun t => t.vocab 260) = some (some [97, 97]) := by
  refine ⟨rfl, by decide, rfl, rfl, rfl, rfl⟩

/-- C8: with the scenario-A state (single merge `(97,97) ↦ 260`),
`encode` applied to the raw text `"aaabaaab"` (no pre-tokenizer on this
path) independently reconstructs `[260, 97, 98, 260, 97, 98]`. -/
theorem claim_C8_scenario_C :
    ((Tokenizer.mk0 261).train corpusA).map
        (fun t => t.encode [97, 97, 97, 98, 97, 97, 97, 98]) =
      some (some [260, 97, 98, 260, 97, 98]) := rfl

/-- C4: each iteration of the encode loop that runs a merge strictly
decreases the token-sequence length (and the loop recurses on the shorter
sequence); consequently the loop always reaches its exit condition —
`encodeLoop` (the value of `Tokenizer.encode` after UTF-8 conversion)
always halts with the loop guard or the `break` condition satisfied. -/
theorem claim_C4_encode_terminates (merges : List ((Nat × Nat) × Nat))
    (tokens : List Nat) :
    (∀ next, encodeStep merges tokens = some next →
        next.length < tokens.length ∧
        encodeLoop merges tokens = encodeLoop merges next) ∧
      encodeStep merges (encodeLoop merges tokens) = none := by
  constructor
  · intro next h
    refine ⟨encodeStep_length_lt merges tokens next h, ?_⟩
    rw [encodeLoop_eq merges tokens, h]
  · exact encodeFuel_exhausts merges tokens.length tokens le_rfl

/-- Witness for C4 at a concrete input: one iteration on
`[97, 97, 97]` with the single merge `(97,97) ↦ 260` yields `[260, 97]`,
strictly shorter. -/
theorem claim_C4_witness :
    ([260, 97] : List Nat).length < ([97, 97, 97] : List Nat).length ∧
      encodeLoop [((97, 97), 260)] [97, 97, 97] =
        encodeLoop [((97, 97), 260)] [260, 97] :=
  (claim_C4_encode_terminates [((97, 97), 260)] [97, 97, 97]).1 [260, 97] rfl

/-- C9: `encode` is a pure function of the merge table and the input
text alone — two tokenizer states with the same `merges` (whatever their
`vocab_size` and vocabulary) encode every text identically, so for fixed
state every call returns the same id sequence. -/
theorem claim_C9_encode_deterministic (t1 t2 : Tokenizer)
    (h : t1.merges = t2.merges) (text : List Nat) :
    t1.encode text = t2.encode text := by
  unfold Tokenizer.encode
  rw [h]

/-- Witness for C9: two states sharing the (empty) merge table but with
different vocabulary size and vocabulary agree on a concrete text. -/
theorem claim_C9_witness :
    (Tokenizer.mk0 1024).encode [97] =
      Tokenizer.encode { vocab_size := 0, vocab := fun _ => none, merges := [] } [97] :=
  claim_C9_encode_deterministic (Tokenizer.mk0 1024)
    { vocab_size := 0, vocab := fun _ => none, merges := [] } rfl [97]

/-! ### Claim C2: decode totality -/

lemma expand_isSome_of_dom (v : Nat → Option (List Nat)) :
    ∀ l : List Nat, (∀ i ∈ l, (v i).isSome) → (expand v l).isSome
  | [], _ => by simp [expand]
  | i :: rest, h => by
    have hi : (v i).isSome := h i (List.mem_cons_self i rest)
    have hr : (expand v rest).isSome :=
      expand_isSome_of_dom v rest fun j hj => h j (List.mem_cons_of_mem i hj)
    obtain ⟨s, hs⟩ := Option.isSome_iff_exists.mp hi
    obtain ⟨r, hrr⟩ := Option.isSome_iff_exists.mp hr
    simp [expand, hs, hrr]

/-- C2 counterexample: `decode` is not total on all integer-id sequences.
On any state — here the freshly constructed `Tokenizer(1024)` — the
one-element input `[97]`, a perfectly ordinary in-vocabulary byte id,
fails: `tokens.squeeze()` turns the one-element tensor into a
0-dimensional tensor and iterating it raises `TypeError` (`none` in the
model) instead of returning a string. -/
theorem claim_C2_counterexample :
    (Tokenizer.mk0 1024).decode [97] = none := rfl

/-- C2 (amended): for every tokenizer state and every id sequence that is
not a singleton (`squeeze()` would collapse it to a 0-d tensor and raise
`TypeError`) and whose non-special ids all lie in the vocabulary,
`decode` returns a string: it drops every id equal to a special-token id
wherever it occurs, looks up and concatenates the remaining ids' byte
strings in order, and decodes the bytes as UTF-8 with replacement
(`utf8DecodeReplace` is total, so invalid byte sequences yield
replacement characters, never an error). -/
theorem claim_C2_decode_total (t : Tokenizer) (ids : List Nat)
    (hone : ids.length ≠ 1)
    (hdom : ∀ i ∈ ids, specialTokenIds.contains i = false → (t.vocab i).isSome) :
    (t.decode ids).isSome ∧
      ∃ bs, expand t.vocab (ids.filter fun i => !(specialTokenIds.contains i)) = some bs ∧
        t.decode ids = some (utf8DecodeReplace bs) := by
  have hsome : (expand t.vocab (ids.filter fun i => !(specialTokenIds.contains i))).isSome := by
    apply expand_isSome_of_dom
    intro i hi
    have hp := List.of_mem_filter hi
    simp only [Bool.not_eq_true'] at hp
    exact hdom i (List.mem_of_mem_filter hi) hp
  obtain ⟨bs, hbs⟩ := Option.isSome_iff_exists.mp hsome
  have hdec : t.decode ids = some (utf8DecodeReplace bs) := by
    unfold Tokenizer.decode
    rw [if_neg hone, hbs]
  exact ⟨by rw [hdec]; rfl, bs, hbs, hdec⟩

/-- Witness for C2 (amended) on the fresh tokenizer and a five-element
sequence with special ids interleaved: `decode([2, 97, 0, 98, 3])`
succeeds and concatenates the byte strings of the surviving ids. -/
theorem claim_C2_witness :
    ((Tokenizer.mk0 1024).decode [2, 97, 0, 98, 3]).isSome ∧
      ∃ bs, expand (Tokenizer.mk0 1024).vocab
          (([2, 97, 0, 98, 3] : List Nat).filter fun i => !(specialTokenIds.contains i)) = some bs ∧
        (Tokenizer.mk0 1024).decode [2, 97, 0, 98, 3] = some (utf8DecodeReplace bs) :=
  claim_C2_decode_total (Tokenizer.mk0 1024) [2, 97, 0, 98, 3] (by decide) (by decide)

/-! ### Pair elimination: after a merge pass the merged pair is gone, and
pairs not involving the fresh id stay gone -/

lemma hasPair_cons_of_ne (a b x : Nat) (hx : x ≠ a) (l : List Nat) :
    hasPair a b (x :: l) = hasPair a b l := by
  cases l with
  | nil => rfl
  | cons y rest => simp [hasPair, hx]

lemma hasPair_cons_false_iff (c d x y : Nat) (l : List Nat) :
    hasPair c d (x :: y :: l) = false ↔
      ¬(x = c ∧ y = d) ∧ hasPair c d (y :: l) = false := by
  simp [hasPair]

lemma hasPair_tail_false (c d y : Nat) (l : List Nat)
    (h : hasPair c d (y :: l) = false) : hasPair c d l = false := by
  cases l with
  | nil => rfl
  | cons z rest =>
    rw [hasPair_cons_false_iff] at h
    exact h.2

lemma merge_tokens_cons_shape (a b idx y : Nat) (l : List Nat) :
    (∃ tl, merge_tokens a b idx (y :: l) = idx :: tl) ∨
      (∃ tl, merge_tokens a b idx (y :: l) = y :: tl) := by
  cases l with
  | nil => exact Or.inr ⟨[], rfl⟩
  | cons u rest =>
    by_cases h : y = a ∧ u = b
    · exact Or.inl ⟨merge_tokens a b idx rest, by simp [merge_tokens, h]⟩
    · exact Or.inr ⟨merge_tokens a b idx (u :: rest), by simp [merge_tokens, h]⟩

lemma not_hasPair_merge_self (a b idx : Nat) (ha : idx ≠ a) (hb : idx ≠ b) :
    ∀ ts : List Nat, hasPair a b (merge_tokens a b idx ts) = false
  | [] => rfl
  | [t] => rfl
  | t :: u :: rest => by
    by_cases h : t = a ∧ u = b
    · rw [show merge_tokens a b idx (t :: u :: rest) =
          idx :: merge_tokens a b idx rest from by simp [merge_tokens, h]]
      rw [hasPair_cons_of_ne a b idx ha]
      exact not_hasPair_merge_self a b idx ha hb rest
    · have ih := not_hasPair_merge_self a b idx ha hb (u :: rest)
      rw [show merge_tokens a b idx (t :: u :: rest) =
          t :: merge_tokens a b idx (u :: rest) from by simp [merge_tokens, h]]
      rcases merge_tokens_cons_shape a b idx u rest with ⟨tl, htl⟩ | ⟨tl, htl⟩
      · rw [htl] at ih ⊢
        rw [hasPair_cons_false_iff]
        exact ⟨fun hc => hb hc.2, ih⟩
      · rw [htl] at ih ⊢
        rw [hasPair_cons_false_iff]
        exact ⟨fun hc => h ⟨hc.1, hc.2⟩, ih⟩

lemma not_hasPair_merge_other (a b idx c d : Nat) (hc : idx ≠ c) (hd : idx ≠ d) :
    ∀ ts : List Nat, hasPair c d ts = false →
      hasPair c d (merge_tokens a b idx ts) = false
  | [], _ => rfl
  | [t], _ => rfl
  | t :: u :: rest, hcd => by
    rw [hasPair_cons_false_iff] at hcd
    obtain ⟨h1, h2⟩ := hcd
    by_cases h : t = a ∧ u = b
    · have ih := not_hasPair_merge_other a b idx c d hc hd rest
        (hasPair_tail_false c d u rest h2)
      rw [show merge_tokens a b idx (t :: u :: rest) =
          idx :: merge_tokens a b idx rest from by simp [merge_tokens, h]]
      rw [hasPair_cons_of_ne c d idx hc]
      exact ih
    · have ih := not_hasPair_merge_other a b idx c d hc hd (u :: rest) h2
      rw [show merge_tokens a b idx (t :: u :: rest) =
          t :: merge_tokens a b idx (u :: rest) from by simp [merge_tokens, h]]
      rcases merge_tokens_cons_shape a b idx u rest with ⟨tl, htl⟩ | ⟨tl, htl⟩
      · rw [htl] at ih ⊢
        rw [hasPair_cons_false_iff]
        exact ⟨fun hcc => hd (hcc.2 ▸ rfl), ih⟩
      · rw [htl] at ih ⊢
        rw [hasPair_cons_false_iff]
        exact ⟨h1, ih⟩

lemma hasPair_mem (a b : Nat) :
    ∀ ts : List Nat, hasPair a b ts = true → a ∈ ts ∧ b ∈ ts
  | x :: y :: rest, h => by
    simp only [hasPair, Bool.or_eq_true, decide_eq_true_eq] at h
    rcases h with ⟨rfl, rfl⟩ | h
    · exact ⟨List.mem_cons_self _ _, List.mem_cons_of_mem _ (List.mem_cons_self _ _)⟩
    · have := hasPair_mem a b (y :: rest) h
      exact ⟨List.mem_cons_of_mem _ this.1, List.mem_cons_of_mem _ this.2⟩

lemma mem_merge_tokens (a b idx : Nat) :
    ∀ (ts : List Nat) (x : Nat), x ∈ merge_tokens a b idx ts → x = idx ∨ x ∈ ts
  | [], x, h => by simp [merge_tokens] at h
  | [t], x, h => by
    simp [merge_tokens] at h
    exact Or.inr (by simp [h])
  | t :: u :: rest, x, h => by
    by_cases hc : t = a ∧ u = b
    · rw [show merge_tokens a b idx (t :: u :: rest) =
          idx :: merge_tokens a b idx rest from by simp [merge_tokens, hc]] at h
      rcases List.mem_cons.mp h with rfl | h
      · exact Or.inl rfl
      · rcases mem_merge_tokens a b idx rest x h with h | h
        · exact Or.inl h
        · exact Or.inr (by simp [h])
    · rw [show merge_tokens a b idx (t :: u :: rest) =
          t :: merge_tokens a b idx (u :: rest) from by simp [merge_tokens, hc]] at h
      rcases List.mem_cons.mp h with rfl | h
      · exact Or.inr (List.mem_cons_self _ _)
      · rcases mem_merge_tokens a b idx (u :: rest) x h with h | h
        · exact Or.inl h
        · exact Or.inr (List.mem_cons_of_mem _ h)

lemma dictInsert_append (p : Nat × Nat) (v : Nat) :
    ∀ l : List ((Nat × Nat) × Nat), (∀ e ∈ l, e.1 ≠ p) →
      dictInsert l p v = l ++ [(p, v)]
  | [], _ => rfl
  | (q, c) :: rest, h => by
    have hq : q ≠ p := h (q, c) (List.mem_cons_self _ _)
    rw [show dictInsert ((q, c) :: rest) p v =
        (q, c) :: dictInsert rest p v from by simp [dictInsert, hq]]
    rw [dictInsert_append p v rest fun e he => h e (List.mem_cons_of_mem _ he)]
    rfl

lemma pyMax_hasPair (ts : List Nat) (p : Nat × Nat) (c : Nat)
    (h : pyMax (get_stats ts) = some (p, c)) : hasPair p.1 p.2 ts = true := by
  have hm := pyMax_mem _ _ h
  have hk : p ∈ (get_stats ts).map Prod.fst := by
    exact List.mem_map_of_mem Prod.fst hm
  rw [mem_get_stats_keys] at hk
  rw [← mem_zipPairs_iff_hasPair]
  simpa using hk

/-! ### The training invariant -/

/-- Invariant of the merge loop of `train` after `i` iterations from a
fresh state: the merge table has one entry per iteration with ids exactly
`260, 261, …, 260 + i - 1` in insertion order and pairwise-distinct keys;
every token is a raw byte or an already-assigned merge id; no recorded
pair occurs adjacently in the current sequence any more; and each
recorded pair's components are resolved ids strictly below its merge id. -/
def TrainInv (i : Nat) (merges : List ((Nat × Nat) × Nat)) (toks : List Nat) : Prop :=
  merges.map Prod.snd = List.range' 260 i ∧
  (merges.map Prod.fst).Nodup ∧
  (∀ x ∈ toks, x < 256 ∨ (260 ≤ x ∧ x < 260 + i)) ∧
  (∀ e ∈ merges, hasPair e.1.1 e.1.2 toks = false) ∧
  (∀ e ∈ merges,
    (e.1.1 < 256 ∨ (260 ≤ e.1.1 ∧ e.1.1 < e.2)) ∧
    (e.1.2 < 256 ∨ (260 ≤ e.1.2 ∧ e.1.2 < e.2)) ∧
    260 ≤ e.2 ∧ e.2 < 260 + i)

lemma TrainInv_length {i : Nat} {merges : List ((Nat × Nat) × Nat)}
    {toks : List Nat} (h : TrainInv i merges toks) : merges.length = i := by
  have := h.1
  have hlen : (merges.map Prod.snd).length = (List.range' 260 i).length := by rw [this]
  simpa using hlen

lemma trainLoop_inv :
    ∀ (n i : Nat) (merges : List ((Nat × Nat) × Nat)) (toks : List Nat)
      (res : List ((Nat × Nat) × Nat) × List Nat),
      trainLoop n i merges toks = some res →
      TrainInv i merges toks →
      TrainInv (i + n) res.1 res.2
  | 0, i, merges, toks, res, h, hinv => by
    simp only [trainLoop, Option.some.injEq] at h
    rw [← h]
    simpa using hinv
  | n + 1, i, merges, toks, res, h, hinv => by
    rw [show trainLoop (n + 1) i merges toks =
        match pyMax (get_stats toks) with
        | none => none
        | some (p, _) =>
          trainLoop n (i + 1) (dictInsert merges p (256 + i + 4))
            (merge_tokens p.1 p.2 (256 + i + 4) toks) from rfl] at h
    cases hmax : pyMax (get_stats toks) with
    | none => rw [hmax] at h; exact absurd h (by simp)
    | some e =>
      obtain ⟨p, c⟩ := e
      rw [hmax] at h
      simp only at h
      obtain ⟨hids, hkeys, htoks, hgone, hcomp⟩ := hinv
      have hhp : hasPair p.1 p.2 toks = true := pyMax_hasPair toks p c hmax
      have hpmem := hasPair_mem p.1 p.2 toks hhp
      have hp1 : p.1 < 256 ∨ (260 ≤ p.1 ∧ p.1 < 260 + i) := htoks p.1 hpmem.1
      have hp2 : p.2 < 256 ∨ (260 ≤ p.2 ∧ p.2 < 260 + i) := htoks p.2 hpmem.2
      have hidx1 : (256 + i + 4) ≠ p.1 := by omega
      have hidx2 : (256 + i + 4) ≠ p.2 := by omega
      have hnotkey : ∀ e ∈ merges, e.1 ≠ p := by
        intro e he heq
        have := hgone e he
        rw [heq] at this
        rw [this] at hhp
        exact Bool.false_ne_true hhp
      have hins : dictInsert merges p (256 + i + 4) = merges ++ [(p, 256 + i + 4)] :=
        dictInsert_append p (256 + i + 4) merges hnotkey
      rw [hins] at h
      have hstep : TrainInv (i + 1) (merges ++ [(p, 256 + i + 4)])
          (merge_tokens p.1 p.2 (256 + i + 4) toks) := by
        refine ⟨?_, ?_, ?_, ?_, ?_⟩
        · rw [List.map_append]
          rw [hids]
          rw [List.range'_1_concat]
          simp only [List.map_cons, List.map_nil]
          congr 2
          omega
        · rw [List.map_append]
          simp only [List.map_cons, List.map_nil]
          apply List.Nodup.append hkeys (List.nodup_singleton p)
          intro q hq hq'
          rcases List.mem_map.mp hq with ⟨e, he, rfl⟩
          simp only [List.mem_singleton] at hq'
          exact hnotkey e he hq'
        · intro x hx
          rcases mem_merge_tokens p.1 p.2 (256 + i + 4) toks x hx with rfl | hx'
          · omega
          · have := htoks x hx'
            omega
        · intro e he
          rcases List.mem_append.mp he with he' | he'
          · have hc1 : (256 + i + 4) ≠ e.1.1 := by
              have := hcomp e he'
              omega
            have hc2 : (256 + i + 4) ≠ e.1.2 := by
              have := hcomp e he'
              omega
            exact not_hasPair_merge_other p.1 p.2 (256 + i + 4) e.1.1 e.1.2
              hc1 hc2 toks (hgone e he')
          · simp only [List.mem_singleton] at he'
            subst he'
            exact not_hasPair_merge_self p.1 p.2 (256 + i + 4) hidx1 hidx2 toks
        · intro e he
          rcases List.mem_append.mp he with he' | he'
          · have := hcomp e he'
            omega
          · simp only [List.mem_singleton] at he'
            subst he'
            simp only
            omega
      have := trainLoop_inv n (i + 1) (merges ++ [(p, 256 + i + 4)])
        (merge_tokens p.1 p.2 (256 + i + 4) toks) res h hstep
      have harith : i + 1 + n = i + (n + 1) := by omega
      rw [harith] at this
      exact this

/-! ### From `train` success to the invariant -/

lemma train_success (V : Nat) (corpus : List Nat) (t : Tokenizer)
    (ht : (Tokenizer.mk0 V).train corpus = some t) :
    ∃ toksF, trainLoop (V - 256 - 4) 0 [] corpus = some (t.merges, toksF) ∧
      buildVocab initVocab t.merges = some t.vocab ∧ t.vocab_size = V := by
  unfold Tokenizer.train Tokenizer.mk0 at ht
  simp only at ht
  split at ht
  · exact absurd ht (by simp)
  · rename_i pr merges toksF heq
    split at ht
    · exact absurd ht (by simp)
    · rename_i v hbuild
      simp only [Option.some.injEq] at ht
      subst ht
      exact ⟨toksF, heq, hbuild, rfl⟩

lemma train_inv (V : Nat) (corpus : List Nat) (t : Tokenizer)
    (hc : ∀ x ∈ corpus, x < 256)
    (ht : (Tokenizer.mk0 V).train corpus = some t) :
    ∃ toksF, TrainInv (V - 256 - 4) t.merges toksF ∧
      buildVocab initVocab t.merges = some t.vocab := by
  obtain ⟨toksF, hloop, hbuild, _⟩ := train_success V corpus t ht
  have hbase : TrainInv 0 [] corpus := by
    refine ⟨rfl, List.nodup_nil, ?_, by simp, by simp⟩
    intro x hx
    exact Or.inl (hc x hx)
  have hinv := trainLoop_inv (V - 256 - 4) 0 [] corpus (t.merges, toksF) hloop hbase
  rw [Nat.zero_add] at hinv
  exact ⟨toksF, hinv, hbuild⟩

/-- C5: after training a fresh `Tokenizer(V)` to completion, the merge
table holds exactly `V - 256 - S` entries (S = 4 special tokens) with
pairwise-distinct pair keys — no iteration ever re-selects a recorded
pair, so no entry is silently overwritten. -/
theorem claim_C5_merge_count (V : Nat) (corpus : List Nat) (t : Tokenizer)
    (hc : ∀ x ∈ corpus, x < 256)
    (ht : (Tokenizer.mk0 V).train corpus = some t) :
    t.merges.length = V - 256 - 4 ∧ (t.merges.map Prod.fst).Nodup := by
  obtain ⟨toksF, hinv, _⟩ := train_inv V corpus t hc ht
  exact ⟨TrainInv_length hinv, hinv.2.1⟩

/-- Witness for C5 at scenario A: `Tokenizer(261)` on `"aaabaaab"`. -/
theorem claim_C5_witness :
    tokA.merges.length = 261 - 256 - 4 ∧ (tokA.merges.map Prod.fst).Nodup :=
  claim_C5_merge_count 261 corpusA tokA (by decide) rfl

/-! ### The vocabulary-building loop -/

lemma buildVocab_spec :
    ∀ (M : List ((Nat × Nat) × Nat)) (v : Nat → Option (List Nat)) (base : Nat),
      260 ≤ base →
      (∀ x, (x < 256 ∨ (260 ≤ x ∧ x < base)) → (v x).isSome) →
      M.map Prod.snd = List.range' base M.length →
      (∀ e ∈ M, (e.1.1 < 256 ∨ (260 ≤ e.1.1 ∧ e.1.1 < e.2)) ∧
                (e.1.2 < 256 ∨ (260 ≤ e.1.2 ∧ e.1.2 < e.2))) →
      ∃ v', buildVocab v M = some v' ∧
        (∀ n, n < base → v' n = v n) ∧
        (∀ n, base + M.length ≤ n → v' n = v n) ∧
        (∀ e ∈ M, ∃ va vb, v' e.1.1 = some va ∧ v' e.1.2 = some vb ∧
          v' e.2 = some (va ++ vb))
  | [], v, base, _, _, _, _ => ⟨v, rfl, fun _ _ => rfl, fun _ _ => rfl, by simp⟩
  | ((a, b), m) :: rest, v, base, hbase, hdom, hids, hcomp => by
    rw [show (((a, b), m) :: rest).length = rest.length + 1 from rfl,
      List.range'_succ] at hids
    simp only [List.map_cons, List.cons.injEq] at hids
    obtain ⟨hm, hids'⟩ := hids
    subst hm
    have hlc : (((a, b), m) :: rest).length = rest.length + 1 := rfl
    obtain ⟨ha, hb⟩ := hcomp ((a, b), m) (List.mem_cons_self _ _)
    simp only at ha hb
    have hva : (v a).isSome := hdom a (by omega)
    have hvb : (v b).isSome := hdom b (by omega)
    obtain ⟨va, hva⟩ := Option.isSome_iff_exists.mp hva
    obtain ⟨vb, hvb⟩ := Option.isSome_iff_exists.mp hvb
    have hstep : buildVocab v (((a, b), m) :: rest) =
        buildVocab (fun n => if n = m then some (va ++ vb) else v n) rest := by
      rw [show buildVocab v (((a, b), m) :: rest) =
          (match v a, v b with
           | some va, some vb =>
             buildVocab (fun n => if n = m then some (va ++ vb) else v n) rest
           | _, _ => none) from rfl]
      rw [hva, hvb]
    have hdom1 : ∀ x, (x < 256 ∨ (260 ≤ x ∧ x < m + 1)) →
        ((fun n => if n = m then some (va ++ vb) else v n) x).isSome := by
      intro x hx
      by_cases hxb : x = m
      · simp [hxb]
      · simp only [if_neg hxb]
        exact hdom x (by omega)
    have hcomp1 : ∀ e ∈ rest, (e.1.1 < 256 ∨ (260 ≤ e.1.1 ∧ e.1.1 < e.2)) ∧
        (e.1.2 < 256 ∨ (260 ≤ e.1.2 ∧ e.1.2 < e.2)) :=
      fun e he => hcomp e (List.mem_cons_of_mem _ he)
    obtain ⟨v', hbuild, hlo, hhi, hcons⟩ :=
      buildVocab_spec rest (fun n => if n = m then some (va ++ vb) else v n)
        (m + 1) (by omega) hdom1 hids' hcomp1
    refine ⟨v', by rw [hstep, hbuild], ?_, ?_, ?_⟩
    · intro n hn
      rw [hlo n (by omega)]
      simp only [if_neg (by omega : n ≠ m)]
    · intro n hn
      rw [hhi n (by omega)]
      simp only [if_neg (by omega : n ≠ m)]
    · intro e he
      rcases List.mem_cons.mp he with rfl | he'
      · refine ⟨va, vb, ?_, ?_, ?_⟩
        · simp only
          rw [hlo a (by omega)]
          simp only [if_neg (by omega : a ≠ m)]
          exact hva
        · simp only
          rw [hlo b (by omega)]
          simp only [if_neg (by omega : b ≠ m)]
          exact hvb
        · simp only
          rw [hlo m (by omega)]
          simp
      · exact hcons e he'

/-- C6: after `train`, every merge-table entry `(a, b) ↦ m` satisfies
`vocab[m] == vocab[a] + vocab[b]` (byte-string concatenation), hence
`len(vocab[m]) == len(vocab[a]) + len(vocab[b])`; the constituent lookups
are defined because `a` and `b` are always already-resolved ids when
`vocab[m]` is built. -/
theorem claim_C6_vocab_consistency (V : Nat) (corpus : List Nat) (t : Tokenizer)
    (hc : ∀ x ∈ corpus, x < 256)
    (ht : (Tokenizer.mk0 V).train corpus = some t) :
    ∀ e ∈ t.merges, ∃ va vb, t.vocab e.1.1 = some va ∧ t.vocab e.1.2 = some vb ∧
      t.vocab e.2 = some (va ++ vb) ∧
      (va ++ vb).length = va.length + vb.length := by
  obtain ⟨toksF, hinv, hbuild⟩ := train_inv V corpus t hc ht
  obtain ⟨hids, hkeys, htoks, hgone, hcomp⟩ := hinv
  have hlen : t.merges.length = V - 256 - 4 := by
    have := congrArg List.length hids
    simpa using this
  obtain ⟨v', hbuild', hlo, hhi, hcons⟩ :=
    buildVocab_spec t.merges initVocab 260 le_rfl
      (by
        intro x hx
        have hx' : x < 256 := by omega
        unfold initVocab
        by_cases h4 : x < 4
        · rw [if_pos h4]
          rfl
        · rw [if_neg h4, if_pos hx']
          rfl)
      (by rw [hids, hlen])
      (fun e he => ⟨(hcomp e he).1, (hcomp e he).2.1⟩)
  rw [hbuild'] at hbuild
  have hv : v' = t.vocab := by
    simpa using hbuild
  subst hv
  intro e he
  obtain ⟨va, vb, h1, h2, h3⟩ := hcons e he
  exact ⟨va, vb, h1, h2, h3, List.length_append va vb⟩

/-- Witness for C6 at scenario A: the single entry `(97, 97) ↦ 260` of
`tokA` has `vocab[260] = vocab[97] ++ vocab[97] = "aa"`. -/
theorem claim_C6_witness :
    tokA.vocab 260 = some ([97] ++ [97]) := by
  obtain ⟨va, vb, hva, hvb, hm, _⟩ :=
    claim_C6_vocab_consistency 261 corpusA tokA (by decide) rfl
      ((97, 97), 260) (by decide)
  have h97 : tokA.vocab 97 = some [97] := rfl
  simp only at hva hvb hm
  rw [h97] at hva hvb
  simp only [Option.some.injEq] at hva hvb
  rw [← hva, ← hvb] at hm
  exact hm

/-- C10: `train` never touches the byte-range vocabulary entries set up
by the constructor — afterwards ids 0–3 still map to the special-token
byte strings, ids 4–255 still map to their single raw byte, and every
merge-table entry's id (the only vocabulary keys train writes) is at
least `256 + 4 = 260`. -/
theorem claim_C10_train_frame (V : Nat) (corpus : List Nat) (t : Tokenizer)
    (hc : ∀ x ∈ corpus, x < 256)
    (ht : (Tokenizer.mk0 V).train corpus = some t) :
    (∀ n, n < 4 → t.vocab n = some (specialTokenBytes n)) ∧
      (∀ n, 4 ≤ n → n < 256 → t.vocab n = some [n]) ∧
      (∀ e ∈ t.merges, 260 ≤ e.2) := by
  obtain ⟨toksF, hinv, hbuild⟩ := train_inv V corpus t hc ht
  obtain ⟨hids, hkeys, htoks, hgone, hcomp⟩ := hinv
  have hlen : t.merges.length = V - 256 - 4 := by
    have := congrArg List.length hids
    simpa using this
  obtain ⟨v', hbuild', hlo, hhi, hcons⟩ :=
    buildVocab_spec t.merges initVocab 260 le_rfl
      (by
        intro x hx
        have hx' : x < 256 := by omega
        unfold initVocab
        by_cases h4 : x < 4
        · rw [if_pos h4]
          rfl
        · rw [if_neg h4, if_pos hx']
          rfl)
      (by rw [hids, hlen])
      (fun e he => ⟨(hcomp e he).1, (hcomp e he).2.1⟩)
  rw [hbuild'] at hbuild
  have hv : v' = t.vocab := by
    simpa using hbuild
  subst hv
  refine ⟨?_, ?_, fun e he => (hcomp e he).2.2.1⟩
  · intro n hn
    rw [hlo n (by omega)]
    unfold initVocab
    rw [if_pos (by omega : n < 4)]
  · intro n h4 h256
    rw [hlo n (by omega)]
    unfold initVocab
    rw [if_neg (by omega : ¬ n < 4), if_pos h256]

/-- Witness for C10 at scenario A: on `tokA`, id 0 still decodes to
`"<PAD>"`'s bytes and id 97 still decodes to the raw byte `97`. -/
theorem claim_C10_witness :
    tokA.vocab 0 = some (specialTokenBytes 0) ∧ tokA.vocab 97 = some [97] :=
  ⟨(claim_C10_train_frame 261 corpusA tokA (by decide) rfl).1 0 (by decide),
   (claim_C10_train_frame 261 corpusA tokA (by decide) rfl).2.1 97 (by decide) (by decide)⟩

lemma utf8d_ascii (b0 : Nat) (h : b0 < 0x80) (l : List Nat) :
    utf8DecodeReplace (b0 :: l) = b0 :: utf8DecodeReplace l := by
  conv_lhs => unfold utf8DecodeReplace
  rw [if_pos h]

lemma utf8d_two (b0 b1 : Nat) (h0 : 0xC2 ≤ b0) (h0' : b0 < 0xE0)
    (h1 : 0x80 ≤ b1 ∧ b1 < 0xC0) (l : List Nat) :
    utf8DecodeReplace (b0 :: b1 :: l) =
      ((b0 - 0xC0) * 64 + (b1 - 0x80)) :: utf8DecodeReplace l := by
  conv_lhs => unfold utf8DecodeReplace
  simp only [if_neg (by omega : ¬ b0 < 0x80), if_neg (by omega : ¬ b0 < 0xC2),
    if_pos h0', if_pos h1]

lemma utf8d_three (b0 b1 b2 : Nat) (h0 : 0xE0 ≤ b0) (h0' : b0 < 0xF0)
    (h1 : cont2OK b0 b1 = true) (h2 : 0x80 ≤ b2 ∧ b2 < 0xC0) (l : List Nat) :
    utf8DecodeReplace (b0 :: b1 :: b2 :: l) =
      ((b0 - 0xE0) * 4096 + (b1 - 0x80) * 64 + (b2 - 0x80)) :: utf8DecodeReplace l := by
  conv_lhs => unfold utf8DecodeReplace
  simp only [if_neg (by omega : ¬ b0 < 0x80), if_neg (by omega : ¬ b0 < 0xC2),
    if_neg (by omega : ¬ b0 < 0xE0), if_pos h0', if_pos h1, if_pos h2]

lemma utf8d_four (b0 b1 b2 b3 : Nat) (h0 : 0xF0 ≤ b0) (h0' : b0 < 0xF5)
    (h1 : cont2OK b0 b1 = true) (h2 : 0x80 ≤ b2 ∧ b2 < 0xC0)
    (h3 : 0x80 ≤ b3 ∧ b3 < 0xC0) (l : List Nat) :
    utf8DecodeReplace (b0 :: b1 :: b2 :: b3 :: l) =
      ((b0 - 0xF0) * 262144 + (b1 - 0x80) * 4096 + (b2 - 0x80) * 64 + (b3 - 0x80)) ::
        utf8DecodeReplace l := by
  conv_lhs => unfold utf8DecodeReplace
  simp only [if_neg (by omega : ¬ b0 < 0x80), if_neg (by omega : ¬ b0 < 0xC2),
    if_neg (by omega : ¬ b0 < 0xE0), if_neg (by omega : ¬ b0 < 0xF0),
    if_pos h0', if_pos h1, if_pos h2, if_pos h3]

lemma utf8EncodeChar_two (c : Nat) (h : 0x80 ≤ c) (h' : c < 0x800) :
    utf8EncodeChar c = [0xC0 + c / 64, 0x80 + c % 64] := by
  unfold utf8EncodeChar
  rw [if_neg (by omega : ¬ c < 0x80), if_pos h']

lemma utf8EncodeChar_three (c : Nat) (h : 0x800 ≤ c) (h' : c < 0x10000) :
    utf8EncodeChar c = [0xE0 + c / 4096, 0x80 + c / 64 % 64, 0x80 + c % 64] := by
  unfold utf8EncodeChar
  rw [if_neg (by omega : ¬ c < 0x80), if_neg (by omega : ¬ c < 0x800), if_pos h']

lemma utf8EncodeChar_four (c : Nat) (h : 0x10000 ≤ c) :
    utf8EncodeChar c =
      [0xF0 + c / 262144, 0x80 + c / 4096 % 64, 0x80 + c / 64 % 64, 0x80 + c % 64] := by
  unfold utf8EncodeChar
  rw [if_neg (by omega : ¬ c < 0x80), if_neg (by omega : ¬ c < 0x800),
    if_neg (by omega : ¬ c < 0x10000)]

/-- A well-formed encoded character prepended to any byte tail decodes to
that character followed by the decode of the tail. -/
lemma utf8_roundtrip_char (c : Nat) (hs : isScalar c = true) (rest : List Nat) :
    utf8DecodeReplace (utf8EncodeChar c ++ rest) = c :: utf8DecodeReplace rest := by
  have hc : c < 0x110000 ∧ (c < 0xD800 ∨ 0xE000 ≤ c) := by
    simpa [isScalar] using hs
  by_cases h1 : c < 0x80
  · rw [show utf8EncodeChar c = [c] from by unfold utf8EncodeChar; rw [if_pos h1]]
    rw [List.cons_append, List.nil_append, utf8d_ascii c h1 rest]
  · by_cases h2 : c < 0x800
    · rw [utf8EncodeChar_two c (by omega) h2]
      simp only [List.cons_append, List.nil_append]
      rw [utf8d_two (0xC0 + c / 64) (0x80 + c % 64)
        (by omega) (by omega) (by omega) rest]
      have hval : (0xC0 + c / 64 - 0xC0) * 64 + (0x80 + c % 64 - 0x80) = c := by
        omega
      rw [hval]
    · by_cases h3 : c < 0x10000
      · rw [utf8EncodeChar_three c (by omega) h3]
        simp only [List.cons_append, List.nil_append]
        have hcont : cont2OK (0xE0 + c / 4096) (0x80 + c / 64 % 64) = true := by
          unfold cont2OK
          split
          · rename_i he
            rw [decide_eq_true_eq]
            omega
          · split
            · rename_i hne he
              rw [decide_eq_true_eq]
              have := hc.2
              omega
            · split
              · rename_i h h' hf
                omega
              · split
                · rename_i h h' h'' hf
                  omega
                · rw [decide_eq_true_eq]
                  omega
        rw [utf8d_three (0xE0 + c / 4096) (0x80 + c / 64 % 64) (0x80 + c % 64)
          (by omega) (by omega) hcont (by omega) rest]
        have hval : (0xE0 + c / 4096 - 0xE0) * 4096 +
            (0x80 + c / 64 % 64 - 0x80) * 64 + (0x80 + c % 64 - 0x80) = c := by
          omega
        rw [hval]
      · rw [utf8EncodeChar_four c (by omega)]
        simp only [List.cons_append, List.nil_append]
        have hcont : cont2OK (0xF0 + c / 262144) (0x80 + c / 4096 % 64) = true := by
          unfold cont2OK
          split
          · rename_i he
            omega
          · split
            · rename_i hne he
              omega
            · split
              · rename_i h h' hf
                rw [decide_eq_true_eq]
                omega
              · split
                · rename_i h h' h'' hf
                  rw [decide_eq_true_eq]
                  have := hc.1
                  omega
                · rw [decide_eq_true_eq]
                  have := hc.1
                  omega
        rw [utf8d_four (0xF0 + c / 262144) (0x80 + c / 4096 % 64) (0x80 + c / 64 % 64)
          (0x80 + c % 64) (by omega) (by have := hc.1; omega) hcont (by omega)
          (by omega) rest]
        have hval : (0xF0 + c / 262144 - 0xF0) * 262144 +
            (0x80 + c / 4096 % 64 - 0x80) * 4096 +
            (0x80 + c / 64 % 64 - 0x80) * 64 + (0x80 + c % 64 - 0x80) = c := by
          have := hc.1
          omega
        rw [hval]

/-- `bytes.decode("utf-8", errors="replace")` inverts `str.encode("utf-8")`
on every well-formed string. -/
lemma utf8_roundtrip :
    ∀ text : List Nat, text.all isScalar = true →
      utf8DecodeReplace ((text.map utf8EncodeChar).flatten) = text
  | [], _ => rfl
  | c :: rest, h => by
    rw [List.all_cons, Bool.and_eq_true] at h
    rw [List.map_cons, List.flatten_cons]
    rw [utf8_roundtrip_char c h.1 ((rest.map utf8EncodeChar).flatten)]
    rw [utf8_roundtrip rest h.2]

lemma utf8EncodeChar_lt_256 (c : Nat) (hs : isScalar c = true) :
    ∀ b ∈ utf8EncodeChar c, b < 256 := by
  have hc : c < 0x110000 := by
    have := of_decide_eq_true hs
    exact this.1
  intro b hb
  by_cases h1 : c < 0x80
  · rw [show utf8EncodeChar c = [c] from by unfold utf8EncodeChar; rw [if_pos h1]] at hb
    simp at hb
    omega
  · by_cases h2 : c < 0x800
    · rw [utf8EncodeChar_two c (by omega) h2] at hb
      simp at hb
      rcases hb with rfl | rfl <;> omega
    · by_cases h3 : c < 0x10000
      · rw [utf8EncodeChar_three c (by omega) h3] at hb
        simp at hb
        rcases hb with rfl | rfl | rfl <;> omega
      · rw [utf8EncodeChar_four c (by omega)] at hb
        simp at hb
        rcases hb with rfl | rfl | rfl | rfl <;> omega

/-! ### Expansion of a token sequence is preserved by the encode loop -/

lemma lookupM_mem :
    ∀ (l : List ((Nat × Nat) × Nat)) (p : Nat × Nat) (v : Nat),
      lookupM l p = some v → (p, v) ∈ l
  | [], p, v, h => by simp [lookupM] at h
  | (q, w) :: rest, p, v, h => by
    rw [show lookupM ((q, w) :: rest) p =
        (if q = p then some w else lookupM rest p) from rfl] at h
    by_cases hq : q = p
    · rw [if_pos hq] at h
      simp only [Option.some.injEq] at h
      subst hq
      subst h
      exact List.mem_cons_self _ _
    · rw [if_neg hq] at h
      exact List.mem_cons_of_mem _ (lookupM_mem rest p v h)

lemma expand_cons_some (v : Nat → Option (List Nat)) (x : Nat) (l : List Nat)
    (B : List Nat) (h : expand v (x :: l) = some B) :
    ∃ s r, v x = some s ∧ expand v l = some r ∧ B = s ++ r := by
  rw [show expand v (x :: l) =
      (match v x, expand v l with
       | some s, some r => some (s ++ r)
       | _, _ => none) from rfl] at h
  cases hx : v x with
  | none => rw [hx] at h; simp at h
  | some s =>
    cases hl : expand v l with
    | none => rw [hx, hl] at h; simp at h
    | some r =>
      rw [hx, hl] at h
      simp only [Option.some.injEq] at h
      exact ⟨s, r, rfl, rfl, h.symm⟩

lemma expand_cons_eq (v : Nat → Option (List Nat)) (x : Nat) (l : List Nat)
    (s r : List Nat) (hx : v x = some s) (hl : expand v l = some r) :
    expand v (x :: l) = some (s ++ r) := by
  rw [show expand v (x :: l) =
      (match v x, expand v l with
       | some s, some r => some (s ++ r)
       | _, _ => none) from rfl]
  rw [hx, hl]

/-- Replacing all occurrences of a pair whose concatenated expansion is
recorded at the replacement id preserves the expansion of the sequence. -/
lemma expand_merge_tokens (v : Nat → Option (List Nat)) (a b idx : Nat)
    (va vb : List Nat) (hva : v a = some va) (hvb : v b = some vb)
    (hvidx : v idx = some (va ++ vb)) :
    ∀ (ts : List Nat) (B : List Nat), expand v ts = some B →
      expand v (merge_tokens a b idx ts) = some B
  | [], _, h => h
  | [t], _, h => h
  | t :: u :: rest, B, h => by
    by_cases hc : t = a ∧ u = b
    · obtain ⟨s, r1, hs, hr1, rfl⟩ := expand_cons_some v t (u :: rest) B h
      obtain ⟨s2, r2, hs2, hr2, rfl⟩ := expand_cons_some v u rest r1 hr1
      rw [hc.1, hva] at hs
      rw [hc.2, hvb] at hs2
      simp only [Option.some.injEq] at hs hs2
      subst hs
      subst hs2
      rw [show merge_tokens a b idx (t :: u :: rest) =
          idx :: merge_tokens a b idx rest from by simp [merge_tokens, hc]]
      rw [expand_cons_eq v idx (merge_tokens a b idx rest) (va ++ vb) r2 hvidx
        (expand_merge_tokens v a b idx va vb hva hvb hvidx rest r2 hr2)]
      rw [List.append_assoc]
    · obtain ⟨s, r1, hs, hr1, rfl⟩ := expand_cons_some v t (u :: rest) B h
      rw [show merge_tokens a b idx (t :: u :: rest) =
          t :: merge_tokens a b idx (u :: rest) from by simp [merge_tokens, hc]]
      exact expand_cons_eq v t (merge_tokens a b idx (u :: rest)) s r1 hs
        (expand_merge_tokens v a b idx va vb hva hvb hvidx (u :: rest) r1 hr1)

/-- Expanding a pure byte sequence through a vocabulary that maps each of
its bytes to the singleton byte string reproduces the sequence. -/
lemma expand_bytes (v : Nat → Option (List Nat)) :
    ∀ bs : List Nat, (∀ x ∈ bs, v x = some [x]) → expand v bs = some bs
  | [], _ => rfl
  | x :: rest, h => by
    have hx : v x = some [x] := h x (List.mem_cons_self _ _)
    have hr : expand v rest = some rest :=
      expand_bytes v rest fun y hy => h y (List.mem_cons_of_mem _ hy)
    rw [expand_cons_eq v x rest [x] rest hx hr]
    rfl

lemma encodeStep_preserve (merges : List ((Nat × Nat) × Nat))
    (v : Nat → Option (List Nat)) (B : List Nat)
    (hrules : ∀ e ∈ merges, ∃ va vb, v e.1.1 = some va ∧ v e.1.2 = some vb ∧
      v e.2 = some (va ++ vb))
    (hids : ∀ e ∈ merges, 260 ≤ e.2)
    (ts next : List Nat) (hs : encodeStep merges ts = some next)
    (h1 : expand v ts = some B) (h2 : ∀ x ∈ ts, 4 ≤ x) :
    expand v next = some B ∧ ∀ x ∈ next, 4 ≤ x := by
  unfold encodeStep at hs
  split at hs
  · split at hs
    · exact absurd hs (by simp)
    · rename_i p _
      split at hs
      · exact absurd hs (by simp)
      · rename_i idx hl
        simp only [Option.some.injEq] at hs
        subst hs
        have hmem := lookupM_mem merges p idx hl
        obtain ⟨va, vb, hva, hvb, hvidx⟩ := hrules (p, idx) hmem
        simp only at hva hvb hvidx
        constructor
        · exact expand_merge_tokens v p.1 p.2 idx va vb hva hvb hvidx ts B h1
        · intro x hx
          rcases mem_merge_tokens p.1 p.2 idx ts x hx with hx1 | hx'
          · have h260 := hids (p, idx) hmem
            simp only at h260
            omega
          · exact h2 x hx'
  · exact absurd hs (by simp)

lemma encodeFuel_preserve (merges : List ((Nat × Nat) × Nat))
    (v : Nat → Option (List Nat)) (B : List Nat)
    (hrules : ∀ e ∈ merges, ∃ va vb, v e.1.1 = some va ∧ v e.1.2 = some vb ∧
      v e.2 = some (va ++ vb))
    (hids : ∀ e ∈ merges, 260 ≤ e.2) :
    ∀ (n : Nat) (ts : List Nat), expand v ts = some B → (∀ x ∈ ts, 4 ≤ x) →
      expand v (encodeFuel merges n ts) = some B ∧
        (∀ x ∈ encodeFuel merges n ts, 4 ≤ x)
  | 0, ts, h1, h2 => ⟨h1, h2⟩
  | n + 1, ts, h1, h2 => by
    rw [encodeFuel_succ]
    cases hs : encodeStep merges ts with
    | none => exact ⟨h1, h2⟩
    | some next =>
      obtain ⟨h1', h2'⟩ :=
        encodeStep_preserve merges v B hrules hids ts next hs h1 h2
      exact encodeFuel_preserve merges v B hrules hids n next h1' h2'

/-- The trained state facts needed for the round trip: byte-range
vocabulary entries are intact, every merge rule's expansion is the
concatenation of its constituents, and merge ids are at least 260. -/
lemma train_props (V : Nat) (corpus : List Nat) (t : Tokenizer)
    (hc : ∀ x ∈ corpus, x < 256)
    (ht : (Tokenizer.mk0 V).train corpus = some t) :
    (∀ n, 4 ≤ n → n < 256 → t.vocab n = some [n]) ∧
      (∀ e ∈ t.merges, ∃ va vb, t.vocab e.1.1 = some va ∧
        t.vocab e.1.2 = some vb ∧ t.vocab e.2 = some (va ++ vb)) ∧
      (∀ e ∈ t.merges, 260 ≤ e.2) := by
  obtain ⟨toksF, hinv, hbuild⟩ := train_inv V corpus t hc ht
  obtain ⟨hids, hkeys, htoks, hgone, hcomp⟩ := hinv
  have hlen : t.merges.length = V - 256 - 4 := by
    have := congrArg List.length hids
    simpa using this
  obtain ⟨v', hbuild', hlo, hhi, hcons⟩ :=
    buildVocab_spec t.merges initVocab 260 le_rfl
      (by
        intro x hx
        have hx' : x < 256 := by omega
        unfold initVocab
        by_cases h4 : x < 4
        · rw [if_pos h4]
          rfl
        · rw [if_neg h4, if_pos hx']
          rfl)
      (by rw [hids, hlen])
      (fun e he => ⟨(hcomp e he).1, (hcomp e he).2.1⟩)
  rw [hbuild'] at hbuild
  have hv : v' = t.vocab := by
    simpa using hbuild
  subst hv
  refine ⟨?_, hcons, fun e he => (hcomp e he).2.2.1⟩
  intro n h4 h256
  rw [hlo n (by omega)]
  unfold initVocab
  rw [if_neg (by omega : ¬ n < 4), if_pos h256]

lemma contains_special_eq_false (i : Nat) (h : 4 ≤ i) :
    specialTokenIds.contains i = false := by
  simp [specialTokenIds]
  omega

lemma mem_specialTokenIds (b : Nat) : b ∈ specialTokenIds ↔ b < 4 := by
  simp [specialTokenIds]
  omega

/-- C1 counterexample: the claim as stated fails on the code. With the
scenario-A state, the text `"aa"` (bytes `[97, 97]`, avoiding the
special ids 0–3) encodes to the single id `[260]`, and decoding a
one-element sequence raises `TypeError` (`tokens.squeeze()` yields a
0-dimensional tensor whose iteration fails), so `decode(encode("aa"))`
errors instead of returning `"aa"`. -/
theorem claim_C1_counterexample :
    tokA.encode [97, 97] = some [260] ∧
      (tokA.encode [97, 97]).bind tokA.decode = none :=
  ⟨rfl, rfl⟩

/-- C1 (amended): for every tokenizer state produced by `train` on a
fresh `Tokenizer` and any corpus, and every well-formed text whose UTF-8
bytes avoid the special-token ids 0–3 and whose encoding is not a single
id (a one-element tensor is collapsed by `squeeze()` and `decode` raises
`TypeError` on it), `decode(encode(text)) == text`. -/
theorem claim_C1_round_trip (V : Nat) (corpus : List Nat) (t : Tokenizer)
    (hc : ∀ x ∈ corpus, x < 256)
    (ht : (Tokenizer.mk0 V).train corpus = some t)
    (text bs : List Nat)
    (henc : strEncodeUtf8 text = some bs)
    (hbs : ∀ b ∈ bs, b ∉ specialTokenIds)
    (hone : ∀ ids, t.encode text = some ids → ids.length ≠ 1) :
    (t.encode text).bind t.decode = some text := by
  obtain ⟨hbytes, hrules, hmids⟩ := train_props V corpus t hc ht
  have henc' := henc
  unfold strEncodeUtf8 at henc'
  by_cases hall : text.all isScalar = true
  · rw [if_pos hall] at henc'
    simp only [Option.some.injEq] at henc'
    have hbs4 : ∀ b ∈ bs, 4 ≤ b := by
      intro b hb
      have := hbs b hb
      rw [mem_specialTokenIds] at this
      omega
    have hbs256 : ∀ b ∈ bs, b < 256 := by
      intro b hb
      rw [← henc'] at hb
      rw [List.mem_flatten] at hb
      obtain ⟨s, hsmem, hbs'⟩ := hb
      rw [List.mem_map] at hsmem
      obtain ⟨c, hcmem, rfl⟩ := hsmem
      have hcs : isScalar c = true := by
        rw [List.all_eq_true] at hall
        exact hall c hcmem
      exact utf8EncodeChar_lt_256 c hcs b hbs'
    have hvocab : ∀ b ∈ bs, t.vocab b = some [b] := fun b hb =>
      hbytes b (hbs4 b hb) (hbs256 b hb)
    have hexp : expand t.vocab bs = some bs := expand_bytes t.vocab bs hvocab
    obtain ⟨hexp', h4'⟩ := encodeFuel_preserve t.merges t.vocab bs hrules hmids
      bs.length bs hexp hbs4
    have hloop : encodeLoop t.merges bs = encodeFuel t.merges bs.length bs := rfl
    have hencode : t.encode text = some (encodeLoop t.merges bs) := by
      unfold Tokenizer.encode
      rw [henc]
      rfl
    rw [hencode]
    show t.decode (encodeLoop t.merges bs) = some text
    have hlen1 : (encodeLoop t.merges bs).length ≠ 1 :=
      hone (encodeLoop t.merges bs) hencode
    unfold Tokenizer.decode
    rw [if_neg hlen1]
    have hfilter : (encodeLoop t.merges bs).filter
        (fun i => !(specialTokenIds.contains i)) = encodeLoop t.merges bs := by
      apply List.filter_eq_self.mpr
      intro a ha
      rw [hloop] at ha
      rw [contains_special_eq_false a (h4' a ha)]
      rfl
    rw [hfilter, hloop, hexp']
    show some (utf8DecodeReplace bs) = some text
    rw [← henc', utf8_roundtrip text hall]
  · rw [if_neg hall] at henc'
    exact absurd henc' (by simp)

/-- Witness for C1 (amended) at scenario A: encoding then decoding
`"ab"` (a two-id encoding) with the trained `tokA` returns `"ab"`. -/
theorem claim_C1_witness :
    (tokA.encode [97, 98]).bind tokA.decode = some [97, 98] :=
  claim_C1_round_trip 261 corpusA tokA (by decide) rfl [97, 98] [97, 98]
    rfl (by decide)
    (by
      intro ids h
      have hids : ids = [97, 98] := by
        have h2 : some ids = some [97, 98] :=
          h.symm.trans (rfl : tokA.encode [97, 98] = some [97, 98])
        simpa using h2
      rw [hids]
      decide)
